import Mathlib

/-!
Verification development for the embedm symbol extraction and indexing
engine.  The repository ships only the representative input file
`doc/manual/src/examples/symbol_example.cpp`; the engine itself
(Scanner, Declaration Recognizer, Symbol Table Builder, Relationship
Resolver, Symbol Graph) is specified in the design document.  Every
definition below that embeds an engine component is therefore modelled
from the spec, faithful to its words, and the sample file supplies the
concrete inputs that the spec's testable properties mention.
-/

namespace EM

/-- Modelled from the spec (section 3): a SourceSpan is a file identifier,
start and end offsets, and start and end lines, attached to every entity. -/
structure SourceSpan where
  file : String
  startOffset : Nat
  endOffset : Nat
  startLine : Nat
  endLine : Nat
deriving DecidableEq, Repr

/-- Modelled from the spec (section 3): the kind of a Symbol. -/
inductive SymbolKind
  | namespaceKind
  | typeKind
  | methodKind
  | fieldKind
  | constructorKind
deriving DecidableEq, Repr

/-- Modelled from the spec (section 3): member visibility. -/
inductive Visibility
  | publicVis
  | protectedVis
  | privateVis
  | unspecified
deriving DecidableEq, Repr

/-- Modelled from the spec (sections 3 and 4.4): a base-type reference is a
name string at build time (pending), and after resolution is either a
reference to a Type Symbol's qualified name or an explicit unresolved
marker carrying the name as written - never silently discarded. -/
inductive BaseRef
  | pending (name : String)
  | resolvedBase (qname : List String)
  | unresolvedBase (name : String)
deriving DecidableEq, Repr

/-- Modelled from the spec (section 3): TypePayload holds the base-type
references and the is-abstract flag. -/
structure TypePayload where
  bases : List BaseRef
  isAbstract : Bool
deriving DecidableEq, Repr

/-- Modelled from the spec (section 3): MethodPayload holds the return-type
text, the opaque parameter-list text, the virtual / abstract / override
flags, and the lazily resolved `overrides` reference (the qualified name of
the overridden virtual method's Symbol). -/
structure MethodPayload where
  returnType : String
  paramList : String
  isVirtual : Bool
  isAbstractM : Bool
  isOverrideM : Bool
  overrides : Option (List String)
deriving DecidableEq, Repr

/-- Modelled from the spec (section 3): the kind-specific payload of a
Symbol. -/
inductive Payload
  | namespaceP
  | typeP (tp : TypePayload)
  | methodP (mp : MethodPayload)
  | fieldP (declaredType : String)
  | constructorP (signature : String)
deriving DecidableEq, Repr

/-- Modelled from the spec (section 3): a Symbol has a qualified name
(ordered name segments, outermost namespace first), a kind, a visibility,
an ordered sequence of SourceSpans (several when a namespace is reopened),
and a kind-specific payload.  Identity is qualified name plus kind. -/
structure Symbol where
  qname : List String
  kind : SymbolKind
  visibility : Visibility
  spans : List SourceSpan
  payload : Payload
deriving DecidableEq, Repr

/-- Modelled from the spec (section 4.1): the Scanner's structural tokens -
keywords, identifiers, braces, punctuation, a parenthesised parameter list
kept as opaque text, an opaque fragment for bodies, and the pure-virtual
marker.  Each token carries the source line it came from. -/
inductive Tok
  | kwNamespace
  | kwClass
  | kwVirtual
  | kwOverride
  | kwAccess (v : Visibility)
  | lbrace
  | rbrace
  | colon
  | comma
  | semicolon
  | ident (s : String)
  | paramsTok (s : String)
  | fragTok (s : String)
  | eqZero
deriving DecidableEq, Repr

/-- A structural token with the line it starts on. -/
structure Token where
  tok : Tok
  line : Nat
deriving DecidableEq, Repr

/-- Modelled from the spec (section 4.2): the raw declaration events the
Declaration Recognizer emits. -/
inductive DeclEvent
  | enterNamespace (name : String) (span : SourceSpan)
  | exitScope
  | enterType (name : String) (baseList : List String) (span : SourceSpan)
  | methodEvt (name : String) (returnType : String) (signature : String)
      (isVirtual isAbstract isOverride : Bool) (span : SourceSpan)
  | fieldEvt (name : String) (declaredType : String) (span : SourceSpan)
  | constructorEvt (name : String) (signature : String) (span : SourceSpan)
  | accessSection (v : Visibility)
deriving DecidableEq, Repr

/-- Spans built from modelled scanner tokens carry the file and line
information; offsets are not modelled by the token stream and are zero. -/
def mkSpan (file : String) (l1 l2 : Nat) : SourceSpan :=
  ⟨file, 0, 0, l1, l2⟩

/-- Modelled from the spec (section 4.2): parse the optional comma-separated
base list after the colon of a type head, skipping access keywords, up to
the opening brace.  Returns the base names, the remaining tokens and the
line of the opening brace. -/
def parseBases : List Token → List String × List Token × Nat
  | ⟨.kwAccess _, _⟩ :: rest => parseBases rest
  | ⟨.ident b, _⟩ :: rest =>
      let pb := parseBases rest
      (b :: pb.1, pb.2)
  | ⟨.comma, _⟩ :: rest => parseBases rest
  | ⟨.lbrace, l⟩ :: rest => ([], rest, l)
  | ts => ([], ts, 0)

/-- Modelled from the spec (section 4.2): consume the trailer of a method
signature (trailing identifiers such as cv-qualifiers, the pure-virtual
marker, the override keyword) up to the terminating semicolon or opaque
body, accumulating the is-abstract and is-override flags. -/
def methodTail : List Token → Bool → Bool → Bool × Bool × List Token
  | [], a, o => (a, o, [])
  | ⟨.semicolon, _⟩ :: rest, a, o => (a, o, rest)
  | ⟨.fragTok _, _⟩ :: rest, a, o => (a, o, rest)
  | ⟨.eqZero, _⟩ :: rest, _, o => methodTail rest true o
  | ⟨.kwOverride, _⟩ :: rest, a, _ => methodTail rest a true
  | ⟨.ident _, _⟩ :: rest, a, o => methodTail rest a o
  | ts, a, o => (a, o, ts)

/-- Modelled from the spec (section 4.2): consume a constructor's member
initializer list (colon, identifiers, parenthesised argument lists, commas)
up to the terminating semicolon or opaque body.  The colon here introduces
initializers, never a base list. -/
def ctorTail : List Token → List Token
  | ⟨.semicolon, _⟩ :: rest => rest
  | ⟨.fragTok _, _⟩ :: rest => rest
  | ⟨.colon, _⟩ :: rest => ctorTail rest
  | ⟨.comma, _⟩ :: rest => ctorTail rest
  | ⟨.ident _, _⟩ :: rest => ctorTail rest
  | ⟨.paramsTok _, _⟩ :: rest => ctorTail rest
  | ts => ts

/-- Modelled from the spec (section 4.2): the Declaration Recognizer.
Pattern-based recognition over the token stream: a type keyword followed by
an identifier, an optional colon plus base list, then a brace opens a type
scope; `virtual` plus signature plus the pure-virtual marker sets
is-abstract; the override keyword sets is-override; an identifier matching
the enclosing type's name directly followed by a parameter list and no
return type is a Constructor.  Unrecognized tokens are skipped without
error.  The scope stack tracks open scope names and whether each is a type.
Fuel bounds the recursion; one token is always consumed per step, so fuel
equal to the token count suffices. -/
def recognize (file : String) : Nat → List (String × Bool) → List Token → List DeclEvent
  | 0, _, _ => []
  | _ + 1, _, [] => []
  | f + 1, stk, t :: rest =>
    match t, rest with
    | ⟨.kwNamespace, l⟩, ⟨.ident n, _⟩ :: ⟨.lbrace, l2⟩ :: rest2 =>
        .enterNamespace n (mkSpan file l l2) :: recognize file f ((n, false) :: stk) rest2
    | ⟨.kwClass, l⟩, ⟨.ident n, _⟩ :: ⟨.lbrace, l2⟩ :: rest2 =>
        .enterType n [] (mkSpan file l l2) :: recognize file f ((n, true) :: stk) rest2
    | ⟨.kwClass, l⟩, ⟨.ident n, _⟩ :: ⟨.colon, _⟩ :: rest2 =>
        let pb := parseBases rest2
        .enterType n pb.1 (mkSpan file l pb.2.2) :: recognize file f ((n, true) :: stk) pb.2.1
    | ⟨.rbrace, _⟩, _ => .exitScope :: recognize file f stk.tail rest
    | ⟨.kwAccess v, _⟩, ⟨.colon, _⟩ :: rest2 =>
        .accessSection v :: recognize file f stk rest2
    | ⟨.kwVirtual, l⟩, ⟨.ident rty, _⟩ :: ⟨.ident nm, _⟩ :: ⟨.paramsTok ps, _⟩ :: rest2 =>
        let tl := methodTail rest2 false false
        .methodEvt nm rty ps true tl.1 tl.2.1 (mkSpan file l l) :: recognize file f stk tl.2.2
    | ⟨.ident rty, l⟩, ⟨.ident nm, _⟩ :: ⟨.paramsTok ps, _⟩ :: rest2 =>
        let tl := methodTail rest2 false false
        .methodEvt nm rty ps false tl.1 tl.2.1 (mkSpan file l l) :: recognize file f stk tl.2.2
    | ⟨.ident ty, l⟩, ⟨.ident nm, _⟩ :: ⟨.semicolon, _⟩ :: rest2 =>
        .fieldEvt nm ty (mkSpan file l l) :: recognize file f stk rest2
    | ⟨.ident nm, l⟩, ⟨.paramsTok ps, _⟩ :: rest2 =>
        (match stk with
         | (tn, true) :: _ =>
             if nm = tn then
               .constructorEvt nm ps (mkSpan file l l) :: recognize file f stk (ctorTail rest2)
             else
               recognize file f stk rest
         | _ => recognize file f stk rest)
    | _, _ => recognize file f stk rest

/-- Modelled from the spec (section 4.3): one entry of the Symbol Table
Builder's scope stack - the scope's local name, whether it is a type scope,
and the current visibility inside it (updated by access-section events). -/
structure ScopeEntry where
  name : String
  isType : Bool
  currentVis : Visibility
deriving DecidableEq, Repr

/-- Modelled from the spec (sections 6 and 7): the run-level, non-fatal
diagnostics. -/
inductive Diagnostic
  | scopeError (name : String)
  | unresolvedBaseDiag (typeQName : List String) (baseName : String)
  | unresolvedOverrideDiag (methodQName : List String)
  | cycleDiag (typeQName : List String)
deriving DecidableEq, Repr

/-- Modelled from the spec (section 4.3): the Symbol Table Builder's state -
the table in insertion order, the scope stack (innermost first), and the
run diagnostics. -/
structure BuildState where
  table : List Symbol
  scopes : List ScopeEntry
  diagnostics : List Diagnostic
deriving DecidableEq, Repr

/-- The qualified-name prefix held by the scope stack, outermost first. -/
def scopeNames (scopes : List ScopeEntry) : List String :=
  scopes.reverse.map ScopeEntry.name

/-- The current visibility: the innermost open scope's, Unspecified at file
root. -/
def currentVisOf : List ScopeEntry → Visibility
  | [] => .unspecified
  | sc :: _ => sc.currentVis

/-- Identity test, spec section 3: identity is qualified name plus kind. -/
def identMatch (q : List String) (k : SymbolKind) (t : Symbol) : Bool :=
  t.qname == q && t.kind == k

/-- Modelled from the spec (section 4.3): insert a Symbol into the table,
merging with an existing Symbol of identical identity (qualified name plus
kind) if present by appending the new spans - multi-span namespace
reopening.  Otherwise append the new Symbol. -/
def insertSymbol (table : List Symbol) (s : Symbol) : List Symbol :=
  if table.any (identMatch s.qname s.kind) then
    table.map (fun t =>
      if identMatch s.qname s.kind t then
        { t with spans := t.spans ++ s.spans }
      else t)
  else
    table ++ [s]

/-- Modelled from the spec (section 3): set the is-abstract flag of the Type
Symbol with the given qualified name (a type declaring at least one pure
virtual method is abstract). -/
def markAbstract (table : List Symbol) (typeQ : List String) : List Symbol :=
  table.map (fun t =>
    if t.qname == typeQ && t.kind == .typeKind then
      match t.payload with
      | .typeP tp => { t with payload := .typeP { tp with isAbstract := true } }
      | _ => t
    else t)

/-- Modelled from the spec (section 4.3): the Symbol Table Builder's step.
Each declaration event constructs a Symbol with qualified name equal to the
scope-stack prefix plus the local name, attaches the event's SourceSpan and
the current visibility, and inserts it into the table.  A Method, Field or
Constructor event with an empty scope stack records a declaration-outside-
scope diagnostic and the Symbol is still created at file-root scope. -/
def applyEvent (st : BuildState) : DeclEvent → BuildState
  | .enterNamespace n span =>
      { st with
        table := insertSymbol st.table
          ⟨scopeNames st.scopes ++ [n], .namespaceKind, currentVisOf st.scopes, [span], .namespaceP⟩
        scopes := ⟨n, false, .unspecified⟩ :: st.scopes }
  | .enterType n bases span =>
      { st with
        table := insertSymbol st.table
          ⟨scopeNames st.scopes ++ [n], .typeKind, currentVisOf st.scopes, [span],
            .typeP ⟨bases.map .pending, false⟩⟩
        scopes := ⟨n, true, .unspecified⟩ :: st.scopes }
  | .exitScope => { st with scopes := st.scopes.tail }
  | .accessSection v =>
      match st.scopes with
      | [] => st
      | sc :: rest => { st with scopes := { sc with currentVis := v } :: rest }
  | .methodEvt n rty ps iv ia io span =>
      let table1 := insertSymbol st.table
        ⟨scopeNames st.scopes ++ [n], .methodKind, currentVisOf st.scopes, [span],
          .methodP ⟨rty, ps, iv, ia, io, none⟩⟩
      { st with
        table := if ia then markAbstract table1 (scopeNames st.scopes) else table1
        diagnostics := st.diagnostics ++ (if st.scopes.isEmpty then [.scopeError n] else []) }
  | .fieldEvt n ty span =>
      { st with
        table := insertSymbol st.table
          ⟨scopeNames st.scopes ++ [n], .fieldKind, currentVisOf st.scopes, [span], .fieldP ty⟩
        diagnostics := st.diagnostics ++ (if st.scopes.isEmpty then [.scopeError n] else []) }
  | .constructorEvt n sig span =>
      { st with
        table := insertSymbol st.table
          ⟨scopeNames st.scopes ++ [n], .constructorKind, currentVisOf st.scopes, [span],
            .constructorP sig⟩
        diagnostics := st.diagnostics ++ (if st.scopes.isEmpty then [.scopeError n] else []) }

/-- The empty builder state. -/
def initState : BuildState := ⟨[], [], []⟩

/-- Modelled from the spec (section 4.3): the Symbol Table Builder consumes
the declaration-event sequence of one file. -/
def build (events : List DeclEvent) : BuildState :=
  events.foldl applyEvent initState

/-- Modelled from the spec (sections 2 and 4.3): run one file through the
Recognizer and the Builder. -/
def runFile (file : String) (toks : List Token) : BuildState :=
  build (recognize file (toks.length + 1) [] toks)

/-- Modelled from the spec (section 2): merge a later per-file table into an
accumulated table, Symbol by Symbol, identities merging. -/
def mergeTables (t1 t2 : List Symbol) : List Symbol :=
  t2.foldl insertSymbol t1

/-- The merged state of an indexing run before resolution. -/
structure RunState where
  table : List Symbol
  diagnostics : List Diagnostic
deriving DecidableEq, Repr

/-- Modelled from the spec (sections 2 and 5): index a sequence of
(fileId, token stream) inputs - per-file pipelines, then a single merge of
the per-file tables and diagnostics in input order. -/
def indexFiles (inputs : List (String × List Token)) : RunState :=
  inputs.foldl
    (fun acc fi =>
      let st := runFile fi.1 fi.2
      ⟨mergeTables acc.table st.table, acc.diagnostics ++ st.diagnostics⟩)
    ⟨[], []⟩

/-- Look up a Type Symbol by exact qualified name. -/
def lookupType (table : List Symbol) (q : List String) : Option Symbol :=
  table.find? (identMatch q .typeKind)

/-- The enclosing scopes to search, innermost to outermost, ending with the
global scope: the full prefix, then shorter and shorter prefixes, then []. -/
def scopeSearchList (pre : List String) : List (List String) :=
  (List.range (pre.length + 1)).map (fun i => pre.take (pre.length - i))

/-- Modelled from the spec (section 4.4): resolve one base-type reference
string for a Type whose enclosing scope is `pre` - exact match in the same
scope first, then up enclosing namespace scopes innermost to outermost,
then a global fallback by simple name; otherwise an explicit unresolved
marker. -/
def resolveBaseRef (table : List Symbol) (pre : List String) (name : String) : BaseRef :=
  match (scopeSearchList pre).findSome?
      (fun p => (lookupType table (p ++ [name])).map Symbol.qname) with
  | some q => .resolvedBase q
  | none =>
      match table.find? (fun s => s.kind == .typeKind && s.qname.getLastD "" == name) with
      | some s => .resolvedBase s.qname
      | none => .unresolvedBase name

/-- Resolve the base references held in one Symbol's payload; also return
the diagnostics for the references that stay unresolved. -/
def resolveSymbolBases (table : List Symbol) (s : Symbol) : Symbol × List Diagnostic :=
  match s.payload with
  | .typeP tp =>
      let rs := tp.bases.map (fun b =>
        match b with
        | .pending n => resolveBaseRef table s.qname.dropLast n
        | other => other)
      let ds := rs.filterMap (fun b =>
        match b with
        | .unresolvedBase n => some (Diagnostic.unresolvedBaseDiag s.qname n)
        | _ => none)
      ({ s with payload := .typeP { tp with bases := rs } }, ds)
  | _ => (s, [])

/-- Modelled from the spec (section 4.4): the base-resolution pass over the
merged table. -/
def resolveBasesPass (table : List Symbol) : List Symbol × List Diagnostic :=
  (table.map (fun s => (resolveSymbolBases table s).1),
   table.foldr (fun s acc => (resolveSymbolBases table s).2 ++ acc) [])

/-- Find the virtual Method Symbol named `name` declared directly in the
type with qualified name `typeQ`, if any. -/
def findVirtualMethod (table : List Symbol) (typeQ : List String) (name : String) : Option Symbol :=
  table.find? (fun s =>
    identMatch (typeQ ++ [name]) .methodKind s &&
      (match s.payload with
       | .methodP mp => mp.isVirtual
       | _ => false))

/-- The resolved base-type qualified names of the type `typeQ`, in declared
base-list order; unresolved entries contribute nothing to chain walks. -/
def resolvedBasesOf (table : List Symbol) (typeQ : List String) : List (List String) :=
  match lookupType table typeQ with
  | some s =>
      match s.payload with
      | .typeP tp =>
          tp.bases.filterMap (fun b =>
            match b with
            | .resolvedBase q => some q
            | _ => none)
      | _ => []
  | none => []

/-- The number of declared base references of a Symbol. -/
def baseCount (s : Symbol) : Nat :=
  match s.payload with
  | .typeP tp => tp.bases.length
  | _ => 0

/-- Weight of the Type Symbols not yet visited: each contributes one plus
its base count.  This quantity plus the queue length strictly decreases at
every step of the chain walk, so it bounds the walk. -/
def unvisitedWeight (table : List Symbol) (visited : List (List String)) : Nat :=
  table.foldr
    (fun s acc => if s.kind = .typeKind ∧ s.qname ∉ visited then 1 + baseCount s + acc else acc) 0

/-- The fuel the Relationship Resolver hands to a chain walk: the total
unvisited weight plus the initial queue length plus one. -/
def walkFuel (table : List Symbol) (queue : List (List String)) : Nat :=
  unvisitedWeight table [] + queue.length + 1

/-- One walk outcome: the overridden method's qualified name if found, and
whether the walk came back to the start type (a declared inheritance
cycle). -/
structure WalkResult where
  found : Option (List String)
  cycleFound : Bool
deriving DecidableEq, Repr

/-- Modelled from the spec (sections 4.4 and 9): the breadth-first
closest-base-first walk of the base-type chain looking for a virtual method
named `name`.  The visited set bounds the walk; reaching the start type
again means the type lists itself, directly or transitively, as its own
base, which is recorded as a detected cycle.  `none` means the fuel ran
out, which the termination theorem rules out at the fuel the Resolver
uses. -/
def walk (table : List Symbol) (startT : List String) (name : String) :
    Nat → List (List String) → List (List String) → Bool → Option WalkResult
  | 0, _, _, _ => none
  | _ + 1, [], _, cyc => some ⟨none, cyc⟩
  | fuel + 1, q :: qs, visited, cyc =>
      if q ∈ visited then
        walk table startT name fuel qs visited (cyc || q == startT)
      else
        match findVirtualMethod table q name with
        | some m => some ⟨some m.qname, cyc⟩
        | none => walk table startT name fuel (qs ++ resolvedBasesOf table q) (q :: visited) cyc

/-- Modelled from the spec (section 4.4): override resolution for one
Method Symbol.  Every Method's enclosing type's base chain is walked; the
first virtual method of the same name binds `overrides` (so a method whose
name matches an ancestor virtual is bound even without the override
marker).  A cycle yields a diagnostic; an override-marked method with no
binding yields an unresolved-override diagnostic. -/
def resolveMethodOverride (table : List Symbol) (s : Symbol) : Symbol × List Diagnostic :=
  match s.payload with
  | .methodP mp =>
      let typeQ := s.qname.dropLast
      let nm := s.qname.getLastD ""
      let queue := resolvedBasesOf table typeQ
      match walk table typeQ nm (walkFuel table queue) queue [typeQ] false with
      | some r =>
          let s2 := { s with payload := .methodP { mp with overrides := r.found } }
          let cycDs := if r.cycleFound then [Diagnostic.cycleDiag typeQ] else []
          let unresDs :=
            if r.found.isNone && mp.isOverrideM then
              [Diagnostic.unresolvedOverrideDiag s.qname]
            else []
          (s2, cycDs ++ unresDs)
      | none => (s, [])
  | _ => (s, [])

/-- Modelled from the spec (section 4.4): the override-resolution pass. -/
def resolveOverridesPass (table : List Symbol) : List Symbol × List Diagnostic :=
  (table.map (fun s => (resolveMethodOverride table s).1),
   table.foldr (fun s acc => (resolveMethodOverride table s).2 ++ acc) [])

/-- Modelled from the spec (sections 2 and 4.4): the Relationship Resolver -
resolve base references over the merged table, then resolve overrides,
collecting run-level diagnostics.  Total: the run always completes and
produces a Symbol Graph. -/
def resolveRun (st : RunState) : RunState :=
  let p1 := resolveBasesPass st.table
  let p2 := resolveOverridesPass p1.1
  ⟨p2.1, st.diagnostics ++ p1.2 ++ p2.2⟩

/-- The whole engine: index the files, then resolve relationships.  The
result is the immutable Symbol Graph of the run. -/
def indexAndResolve (inputs : List (String × List Token)) : RunState :=
  resolveRun (indexFiles inputs)

/-- Modelled from the spec (section 3, lifecycle): re-indexing a file
replaces that file's contribution wholesale - the run is redone with the
file's new token stream in place of its old one. -/
def reindexInputs (inputs : List (String × List Token)) (file : String)
    (newToks : List Token) : List (String × List Token) :=
  inputs.map (fun fi => if fi.1 = file then (fi.1, newToks) else fi)

/-- Query surface: the first Symbol with the given qualified name and kind. -/
def findIdent (table : List Symbol) (q : List String) (k : SymbolKind) : Option Symbol :=
  table.find? (identMatch q k)

/-- Query surface: the `overrides` binding of the Method Symbol named `q`. -/
def overridesOf (g : RunState) (q : List String) : Option (Option (List String)) :=
  match findIdent g.table q .methodKind with
  | some s =>
      match s.payload with
      | .methodP mp => some mp.overrides
      | _ => none
  | none => none

/-- Query surface: the resolved base list of the Type Symbol named `q`. -/
def basesOf (g : RunState) (q : List String) : Option (List BaseRef) :=
  match findIdent g.table q .typeKind with
  | some s =>
      match s.payload with
      | .typeP tp => some tp.bases
      | _ => none
  | none => none

/-- Query surface: the visibility of the Symbol with identity (q, k). -/
def visibilityOf (g : RunState) (q : List String) (k : SymbolKind) : Option Visibility :=
  (findIdent g.table q k).map Symbol.visibility

/-- Modelled from the spec (section 4.1): the Scanner's structural-token
output for the repository's sample input
`doc/manual/src/examples/symbol_example.cpp`, token for token with the
source lines of that file.  Comments produce no tokens; method bodies are
opaque fragments; `public:` and `private:` are access-section keywords. -/
def sampleTokens : List Token :=
  [⟨.kwNamespace, 3⟩, ⟨.ident "graphics", 3⟩, ⟨.lbrace, 3⟩,
   ⟨.kwClass, 5⟩, ⟨.ident "Shape", 5⟩, ⟨.lbrace, 5⟩,
   ⟨.kwAccess .publicVis, 6⟩, ⟨.colon, 6⟩,
   ⟨.kwVirtual, 7⟩, ⟨.ident "double", 7⟩, ⟨.ident "area", 7⟩, ⟨.paramsTok "()", 7⟩,
     ⟨.ident "const", 7⟩, ⟨.eqZero, 7⟩, ⟨.semicolon, 7⟩,
   ⟨.kwVirtual, 8⟩, ⟨.ident "void", 8⟩, ⟨.ident "draw", 8⟩, ⟨.paramsTok "()", 8⟩,
     ⟨.ident "const", 8⟩, ⟨.eqZero, 8⟩, ⟨.semicolon, 8⟩,
   ⟨.rbrace, 9⟩, ⟨.semicolon, 9⟩,
   ⟨.kwClass, 11⟩, ⟨.ident "Circle", 11⟩, ⟨.colon, 11⟩, ⟨.kwAccess .publicVis, 11⟩,
     ⟨.ident "Shape", 11⟩, ⟨.lbrace, 11⟩,
   ⟨.kwAccess .publicVis, 12⟩, ⟨.colon, 12⟩,
   ⟨.ident "Circle", 13⟩, ⟨.paramsTok "(double r)", 13⟩, ⟨.colon, 13⟩,
     ⟨.ident "radius", 13⟩, ⟨.paramsTok "(r)", 13⟩, ⟨.fragTok "ctor-body", 13⟩,
   ⟨.ident "double", 15⟩, ⟨.ident "area", 15⟩, ⟨.paramsTok "()", 15⟩,
     ⟨.ident "const", 15⟩, ⟨.kwOverride, 15⟩, ⟨.fragTok "area-body", 15⟩,
   ⟨.ident "void", 19⟩, ⟨.ident "draw", 19⟩, ⟨.paramsTok "()", 19⟩,
     ⟨.ident "const", 19⟩, ⟨.kwOverride, 19⟩, ⟨.fragTok "draw-body", 19⟩,
   ⟨.kwAccess .privateVis, 23⟩, ⟨.colon, 23⟩,
   ⟨.ident "double", 24⟩, ⟨.ident "radius", 24⟩, ⟨.semicolon, 24⟩,
   ⟨.rbrace, 25⟩, ⟨.semicolon, 25⟩,
   ⟨.rbrace, 27⟩]

/-- The sample file's identifier. -/
def sampleFile : String := "symbol_example.cpp"

/-- The declaration events the Recognizer emits for the sample file. -/
def sampleEvents : List DeclEvent :=
  recognize sampleFile (sampleTokens.length + 1) [] sampleTokens

/-- The resolved Symbol Graph of an indexing run over the sample file
alone. -/
def sampleGraph : RunState :=
  indexAndResolve [(sampleFile, sampleTokens)]

/-- Query surface: the MethodPayload of the Method Symbol named `q`. -/
def methodInfoOf (g : RunState) (q : List String) : Option MethodPayload :=
  match findIdent g.table q .methodKind with
  | some s =>
      match s.payload with
      | .methodP mp => some mp
      | _ => none
  | none => none

/-- Token stream of a diamond-inheritance input: Types A and B each declare
a virtual method m, and Type C has declared base list [A, B] and an
override method m. -/
def diamondTokens : List Token :=
  [⟨.kwClass, 1⟩, ⟨.ident "A", 1⟩, ⟨.lbrace, 1⟩,
   ⟨.kwAccess .publicVis, 2⟩, ⟨.colon, 2⟩,
   ⟨.kwVirtual, 3⟩, ⟨.ident "void", 3⟩, ⟨.ident "m", 3⟩, ⟨.paramsTok "()", 3⟩, ⟨.semicolon, 3⟩,
   ⟨.rbrace, 4⟩, ⟨.semicolon, 4⟩,
   ⟨.kwClass, 5⟩, ⟨.ident "B", 5⟩, ⟨.lbrace, 5⟩,
   ⟨.kwAccess .publicVis, 6⟩, ⟨.colon, 6⟩,
   ⟨.kwVirtual, 7⟩, ⟨.ident "void", 7⟩, ⟨.ident "m", 7⟩, ⟨.paramsTok "()", 7⟩, ⟨.semicolon, 7⟩,
   ⟨.rbrace, 8⟩, ⟨.semicolon, 8⟩,
   ⟨.kwClass, 9⟩, ⟨.ident "C", 9⟩, ⟨.colon, 9⟩, ⟨.ident "A", 9⟩, ⟨.comma, 9⟩,
     ⟨.ident "B", 9⟩, ⟨.lbrace, 9⟩,
   ⟨.kwAccess .publicVis, 10⟩, ⟨.colon, 10⟩,
   ⟨.ident "void", 11⟩, ⟨.ident "m", 11⟩, ⟨.paramsTok "()", 11⟩, ⟨.kwOverride, 11⟩, ⟨.semicolon, 11⟩,
   ⟨.rbrace, 12⟩, ⟨.semicolon, 12⟩]

/-- The resolved graph of the diamond-inheritance input. -/
def diamondGraph : RunState :=
  indexAndResolve [("diamond.cpp", diamondTokens)]

/-- Token stream of a malformed input in which Type A lists itself as its
own base and declares an override method m. -/
def selfBaseTokens : List Token :=
  [⟨.kwClass, 1⟩, ⟨.ident "A", 1⟩, ⟨.colon, 1⟩, ⟨.ident "A", 1⟩, ⟨.lbrace, 1⟩,
   ⟨.kwAccess .publicVis, 2⟩, ⟨.colon, 2⟩,
   ⟨.ident "void", 3⟩, ⟨.ident "m", 3⟩, ⟨.paramsTok "()", 3⟩, ⟨.kwOverride, 3⟩, ⟨.semicolon, 3⟩,
   ⟨.rbrace, 4⟩, ⟨.semicolon, 4⟩]

/-- The resolved graph of the self-inheritance input. -/
def selfBaseGraph : RunState :=
  indexAndResolve [("selfbase.cpp", selfBaseTokens)]

/-- Token stream of a transitive-cycle input: P has base Q, Q has base P,
and P declares an override method m. -/
def transCycleTokens : List Token :=
  [⟨.kwClass, 1⟩, ⟨.ident "P", 1⟩, ⟨.colon, 1⟩, ⟨.ident "Q", 1⟩, ⟨.lbrace, 1⟩,
   ⟨.kwAccess .publicVis, 2⟩, ⟨.colon, 2⟩,
   ⟨.ident "void", 3⟩, ⟨.ident "m", 3⟩, ⟨.paramsTok "()", 3⟩, ⟨.kwOverride, 3⟩, ⟨.semicolon, 3⟩,
   ⟨.rbrace, 4⟩, ⟨.semicolon, 4⟩,
   ⟨.kwClass, 5⟩, ⟨.ident "Q", 5⟩, ⟨.colon, 5⟩, ⟨.ident "P", 5⟩, ⟨.lbrace, 5⟩,
   ⟨.rbrace, 6⟩, ⟨.semicolon, 6⟩]

/-- The resolved graph of the transitive-cycle input. -/
def transCycleGraph : RunState :=
  indexAndResolve [("transcycle.cpp", transCycleTokens)]

/-- Token stream declaring a Type whose base names a type that exists
nowhere: class Orphan : Widget, with no Widget declared anywhere. -/
def unresolvedBaseTokens : List Token :=
  [⟨.kwClass, 1⟩, ⟨.ident "Orphan", 1⟩, ⟨.colon, 1⟩, ⟨.ident "Widget", 1⟩, ⟨.lbrace, 1⟩,
   ⟨.rbrace, 2⟩, ⟨.semicolon, 2⟩]

/-- Token stream of a file that reopens namespace graphics twice. -/
def reopenTokens : List Token :=
  [⟨.kwNamespace, 1⟩, ⟨.ident "graphics", 1⟩, ⟨.lbrace, 1⟩, ⟨.rbrace, 2⟩,
   ⟨.kwNamespace, 4⟩, ⟨.ident "graphics", 4⟩, ⟨.lbrace, 4⟩, ⟨.rbrace, 5⟩]

/-- The resolved graph of the reopened-namespace input. -/
def reopenGraph : RunState :=
  indexAndResolve [("reopen.cpp", reopenTokens)]

/-- Token stream declaring namespace n, used for the re-indexing inputs. -/
def nsTokens : List Token :=
  [⟨.kwNamespace, 1⟩, ⟨.ident "n", 1⟩, ⟨.lbrace, 1⟩, ⟨.rbrace, 2⟩]

/-- Two-file input for re-indexing: a.cpp declares namespace n, b.cpp is
empty. -/
def reindexInputsOrig : List (String × List Token) :=
  [("a.cpp", nsTokens), ("b.cpp", [])]

/-- Spec-side recomputation (spec section 8): the effect of one declaration
event on the stack of enclosing scope names, outermost first.  Namespace
and type opens push their name, a scope exit pops, other events leave the
stack alone. -/
def scopeStep (σ : List String) : DeclEvent → List String
  | .enterNamespace n _ => σ ++ [n]
  | .enterType n _ _ => σ ++ [n]
  | .exitScope => σ.dropLast
  | _ => σ

/-- Spec-side recomputation: the enclosing scope names after a prefix of
the event sequence. -/
def scopeStackAt (events : List DeclEvent) : List String :=
  events.foldl scopeStep []

theorem identMatch_iff {q : List String} {k : SymbolKind} {t : Symbol} :
    identMatch q k t = true ↔ t.qname = q ∧ t.kind = k := by
  simp [identMatch]

theorem scopeNames_nil_iff {scopes : List ScopeEntry} :
    scopeNames scopes = [] ↔ scopes = [] := by
  simp [scopeNames]

theorem scopeNames_tail (scopes : List ScopeEntry) :
    scopeNames scopes.tail = (scopeNames scopes).dropLast := by
  have h := List.tail_reverse scopes.reverse
  rw [List.reverse_reverse] at h
  calc scopeNames scopes.tail
      = (scopes.tail).reverse.map ScopeEntry.name := rfl
    _ = (scopes.reverse.dropLast.reverse).reverse.map ScopeEntry.name := by rw [← h]
    _ = (scopes.reverse.dropLast).map ScopeEntry.name := by rw [List.reverse_reverse]
    _ = (scopeNames scopes).dropLast := by rw [scopeNames, ← List.map_dropLast]

theorem scopeNames_applyEvent (st : BuildState) (e : DeclEvent) :
    scopeNames (applyEvent st e).scopes = scopeStep (scopeNames st.scopes) e := by
  cases e with
  | enterNamespace n span => simp [applyEvent, scopeStep, scopeNames]
  | enterType n bases span => simp [applyEvent, scopeStep, scopeNames]
  | exitScope => simpa [applyEvent, scopeStep] using scopeNames_tail st.scopes
  | accessSection v =>
      cases h : st.scopes with
      | nil => simp [applyEvent, scopeStep, h]
      | cons sc rest => simp [applyEvent, scopeStep, h, scopeNames]
  | methodEvt n rty ps iv ia io span => simp [applyEvent, scopeStep]
  | fieldEvt n ty span => simp [applyEvent, scopeStep]
  | constructorEvt n sig span => simp [applyEvent, scopeStep]

theorem scopeNames_foldl (es : List DeclEvent) (st : BuildState) :
    scopeNames (es.foldl applyEvent st).scopes = es.foldl scopeStep (scopeNames st.scopes) := by
  induction es generalizing st with
  | nil => rfl
  | cons e es ih => rw [List.foldl_cons, List.foldl_cons, ih, scopeNames_applyEvent]

theorem scopeNames_build (es : List DeclEvent) :
    scopeNames (build es).scopes = scopeStackAt es := by
  simpa [build, initState, scopeNames] using scopeNames_foldl es initState

theorem insertSymbol_mem_ident (table : List Symbol) (s : Symbol) :
    ∃ t ∈ insertSymbol table s, t.qname = s.qname ∧ t.kind = s.kind := by
  unfold insertSymbol
  split
  next h =>
    obtain ⟨t, ht, hm⟩ := List.any_eq_true.mp h
    obtain ⟨hq, hk⟩ := identMatch_iff.mp hm
    refine ⟨{ t with spans := t.spans ++ s.spans }, ?_, hq, hk⟩
    have heq : (fun t => if identMatch s.qname s.kind t then
        { t with spans := t.spans ++ s.spans } else t) t
        = { t with spans := t.spans ++ s.spans } := by simp [hm]
    exact heq ▸ List.mem_map_of_mem _ ht
  next h =>
    exact ⟨s, by simp, rfl, rfl⟩

theorem insertSymbol_preserves {table : List Symbol} {t : Symbol} (s : Symbol)
    (ht : t ∈ table) :
    ∃ t' ∈ insertSymbol table s, t'.qname = t.qname ∧ t'.kind = t.kind ∧
      t'.visibility = t.visibility ∧ t'.payload = t.payload := by
  unfold insertSymbol
  split
  · refine ⟨(fun u => if identMatch s.qname s.kind u then
        { u with spans := u.spans ++ s.spans } else u) t, List.mem_map_of_mem _ ht, ?_⟩
    dsimp only
    split <;> simp
  · exact ⟨t, List.mem_append_left _ ht, rfl, rfl, rfl, rfl⟩

theorem markAbstract_preserves {table : List Symbol} {t : Symbol} (q : List String)
    (ht : t ∈ table) :
    ∃ t' ∈ markAbstract table q, t'.qname = t.qname ∧ t'.kind = t.kind ∧
      t'.visibility = t.visibility := by
  refine ⟨_, List.mem_map_of_mem _ ht, ?_⟩
  dsimp only
  split
  · split <;> simp
  · simp

theorem applyEvent_preserves {st : BuildState} {t : Symbol} (e : DeclEvent)
    (ht : t ∈ st.table) :
    ∃ t' ∈ (applyEvent st e).table, t'.qname = t.qname ∧ t'.kind = t.kind ∧
      t'.visibility = t.visibility := by
  cases e with
  | enterNamespace n span =>
      obtain ⟨t', h1, h2, h3, h4, _⟩ := insertSymbol_preserves _ ht
      exact ⟨t', by simpa [applyEvent] using h1, h2, h3, h4⟩
  | enterType n bases span =>
      obtain ⟨t', h1, h2, h3, h4, _⟩ := insertSymbol_preserves _ ht
      exact ⟨t', by simpa [applyEvent] using h1, h2, h3, h4⟩
  | exitScope => exact ⟨t, by simpa [applyEvent] using ht, rfl, rfl, rfl⟩
  | accessSection v =>
      cases h : st.scopes with
      | nil => exact ⟨t, by simpa [applyEvent, h] using ht, rfl, rfl, rfl⟩
      | cons sc rest => exact ⟨t, by simpa [applyEvent, h] using ht, rfl, rfl, rfl⟩
  | methodEvt n rty ps iv ia io span =>
      cases ia with
      | true =>
          obtain ⟨t', h1, h2, h3, h4, _⟩ := insertSymbol_preserves
            (⟨scopeNames st.scopes ++ [n], .methodKind, currentVisOf st.scopes, [span],
              .methodP ⟨rty, ps, iv, true, io, none⟩⟩) ht
          obtain ⟨t'', g1, g2, g3, g4⟩ := markAbstract_preserves (scopeNames st.scopes) h1
          exact ⟨t'', by simpa [applyEvent] using g1,
            by rw [g2, h2], by rw [g3, h3], by rw [g4, h4]⟩
      | false =>
          obtain ⟨t', h1, h2, h3, h4, _⟩ := insertSymbol_preserves
            (⟨scopeNames st.scopes ++ [n], .methodKind, currentVisOf st.scopes, [span],
              .methodP ⟨rty, ps, iv, false, io, none⟩⟩) ht
          exact ⟨t', by simpa [applyEvent] using h1, h2, h3, h4⟩
  | fieldEvt n ty span =>
      obtain ⟨t', h1, h2, h3, h4, _⟩ := insertSymbol_preserves _ ht
      exact ⟨t', by simpa [applyEvent] using h1, h2, h3, h4⟩
  | constructorEvt n sig span =>
      obtain ⟨t', h1, h2, h3, h4, _⟩ := insertSymbol_preserves _ ht
      exact ⟨t', by simpa [applyEvent] using h1, h2, h3, h4⟩

theorem foldl_preserves {es : List DeclEvent} {st : BuildState} {t : Symbol}
    (ht : t ∈ st.table) :
    ∃ t' ∈ (es.foldl applyEvent st).table, t'.qname = t.qname ∧ t'.kind = t.kind ∧
      t'.visibility = t.visibility := by
  induction es generalizing st t with
  | nil => exact ⟨t, ht, rfl, rfl, rfl⟩
  | cons e es ih =>
      obtain ⟨t', h1, h2, h3, h4⟩ := applyEvent_preserves e ht
      obtain ⟨t'', g1, g2, g3, g4⟩ := ih h1
      exact ⟨t'', g1, by rw [g2, h2], by rw [g3, h3], by rw [g4, h4]⟩

theorem applyEvent_diag_mono {st : BuildState} {d : Diagnostic} (e : DeclEvent)
    (hd : d ∈ st.diagnostics) : d ∈ (applyEvent st e).diagnostics := by
  cases e with
  | accessSection v =>
      cases h : st.scopes with
      | nil => simpa [applyEvent, h] using hd
      | cons sc rest => simpa [applyEvent, h] using hd
  | methodEvt n rty ps iv ia io span => simp [applyEvent]; exact Or.inl hd
  | fieldEvt n ty span => simp [applyEvent]; exact Or.inl hd
  | constructorEvt n sig span => simp [applyEvent]; exact Or.inl hd
  | enterNamespace n span => simpa [applyEvent] using hd
  | enterType n bases span => simpa [applyEvent] using hd
  | exitScope => simpa [applyEvent] using hd

theorem foldl_diag_mono {es : List DeclEvent} {st : BuildState} {d : Diagnostic}
    (hd : d ∈ st.diagnostics) : d ∈ (es.foldl applyEvent st).diagnostics := by
  induction es generalizing st with
  | nil => exact hd
  | cons e es ih => exact ih (applyEvent_diag_mono e hd)

/-- The member-declaration events - Method, Field, Constructor - with the
declared local name and the Symbol kind they create. -/
def memberDecl : DeclEvent → Option (String × SymbolKind)
  | .methodEvt n _ _ _ _ _ _ => some (n, .methodKind)
  | .fieldEvt n _ _ => some (n, .fieldKind)
  | .constructorEvt n _ _ => some (n, .constructorKind)
  | _ => none

theorem applyEvent_member_mem {e : DeclEvent} {n : String} {k : SymbolKind}
    (st : BuildState) (he : memberDecl e = some (n, k)) :
    ∃ t ∈ (applyEvent st e).table, t.qname = scopeNames st.scopes ++ [n] ∧ t.kind = k := by
  cases e with
  | methodEvt n' rty ps iv ia io span =>
      obtain ⟨rfl, rfl⟩ : n' = n ∧ SymbolKind.methodKind = k := by
        simpa [memberDecl] using he
      cases ia with
      | true =>
          obtain ⟨t, h1, h2, h3⟩ := insertSymbol_mem_ident st.table
            (⟨scopeNames st.scopes ++ [n'], .methodKind, currentVisOf st.scopes, [span],
              .methodP ⟨rty, ps, iv, true, io, none⟩⟩)
          obtain ⟨t', g1, g2, g3, _⟩ := markAbstract_preserves (scopeNames st.scopes) h1
          exact ⟨t', by simpa [applyEvent] using g1, by rw [g2, h2], by rw [g3, h3]⟩
      | false =>
          obtain ⟨t, h1, h2, h3⟩ := insertSymbol_mem_ident st.table
            (⟨scopeNames st.scopes ++ [n'], .methodKind, currentVisOf st.scopes, [span],
              .methodP ⟨rty, ps, iv, false, io, none⟩⟩)
          exact ⟨t, by simpa [applyEvent] using h1, h2, h3⟩
  | fieldEvt n' ty span =>
      obtain ⟨rfl, rfl⟩ : n' = n ∧ SymbolKind.fieldKind = k := by
        simpa [memberDecl] using he
      obtain ⟨t, h1, h2, h3⟩ := insertSymbol_mem_ident st.table
        (⟨scopeNames st.scopes ++ [n'], .fieldKind, currentVisOf st.scopes, [span], .fieldP ty⟩)
      exact ⟨t, by simpa [applyEvent] using h1, h2, h3⟩
  | constructorEvt n' sig span =>
      obtain ⟨rfl, rfl⟩ : n' = n ∧ SymbolKind.constructorKind = k := by
        simpa [memberDecl] using he
      obtain ⟨t, h1, h2, h3⟩ := insertSymbol_mem_ident st.table
        (⟨scopeNames st.scopes ++ [n'], .constructorKind, currentVisOf st.scopes, [span],
          .constructorP sig⟩)
      exact ⟨t, by simpa [applyEvent] using h1, h2, h3⟩
  | enterNamespace n' span => simp [memberDecl] at he
  | enterType n' bases span => simp [memberDecl] at he
  | exitScope => simp [memberDecl] at he
  | accessSection v => simp [memberDecl] at he

theorem build_middle (pre post : List DeclEvent) (e : DeclEvent) :
    build (pre ++ e :: post) = post.foldl applyEvent (applyEvent (build pre) e) := by
  simp [build, List.foldl_append]

theorem build_member_symbol {e : DeclEvent} {n : String} {k : SymbolKind}
    (pre post : List DeclEvent) (he : memberDecl e = some (n, k)) :
    ∃ s ∈ (build (pre ++ e :: post)).table,
      s.qname = scopeStackAt pre ++ [n] ∧ s.kind = k := by
  rw [build_middle]
  obtain ⟨t, h1, h2, h3⟩ := applyEvent_member_mem (build pre) he
  obtain ⟨t', g1, g2, g3, _⟩ := foldl_preserves h1
  exact ⟨t', g1, by rw [g2, h2, scopeNames_build], by rw [g3, h3]⟩

/-- Spec invariant (section 3): no two distinct Symbols of a table share
qualified name and kind. -/
def UniqueIdentities (table : List Symbol) : Prop :=
  table.Pairwise (fun s t => ¬(s.qname = t.qname ∧ s.kind = t.kind))

theorem unique_map {table : List Symbol} (f : Symbol → Symbol)
    (hf : ∀ t, (f t).qname = t.qname ∧ (f t).kind = t.kind)
    (h : UniqueIdentities table) : UniqueIdentities (table.map f) := by
  refine List.Pairwise.map f ?_ h
  intro a b hr hab
  exact hr ⟨by rw [← (hf a).1, ← (hf b).1]; exact hab.1,
    by rw [← (hf a).2, ← (hf b).2]; exact hab.2⟩

theorem insertSymbol_unique {table : List Symbol} (s : Symbol)
    (h : UniqueIdentities table) : UniqueIdentities (insertSymbol table s) := by
  unfold insertSymbol
  split
  next hany =>
    refine unique_map _ ?_ h
    intro t
    dsimp only
    split <;> simp
  next hany =>
    rw [UniqueIdentities, List.pairwise_append]
    refine ⟨h, List.pairwise_singleton _ _, ?_⟩
    intro a ha b hb hab
    have hb' : b = s := by simpa using hb
    subst hb'
    exact hany (List.any_eq_true.mpr ⟨a, ha, identMatch_iff.mpr ⟨hab.1, hab.2⟩⟩)

theorem markAbstract_unique {table : List Symbol} (q : List String)
    (h : UniqueIdentities table) : UniqueIdentities (markAbstract table q) := by
  refine unique_map _ ?_ h
  intro t
  dsimp only
  split
  · split <;> simp
  · simp

theorem applyEvent_unique {st : BuildState} (e : DeclEvent)
    (h : UniqueIdentities st.table) : UniqueIdentities (applyEvent st e).table := by
  cases e with
  | enterNamespace n span => exact insertSymbol_unique _ h
  | enterType n bases span => exact insertSymbol_unique _ h
  | exitScope => exact h
  | accessSection v =>
      cases hs : st.scopes with
      | nil => simpa [applyEvent, hs] using h
      | cons sc rest => simpa [applyEvent, hs] using h
  | methodEvt n rty ps iv ia io span =>
      cases ia with
      | true => exact markAbstract_unique _ (insertSymbol_unique _ h)
      | false => exact insertSymbol_unique _ h
  | fieldEvt n ty span => exact insertSymbol_unique _ h
  | constructorEvt n sig span => exact insertSymbol_unique _ h

theorem foldl_unique {es : List DeclEvent} {st : BuildState}
    (h : UniqueIdentities st.table) : UniqueIdentities (es.foldl applyEvent st).table := by
  induction es generalizing st with
  | nil => exact h
  | cons e es ih => exact ih (applyEvent_unique e h)

theorem mergeTables_unique {t1 t2 : List Symbol}
    (h : UniqueIdentities t1) : UniqueIdentities (mergeTables t1 t2) := by
  induction t2 generalizing t1 with
  | nil => exact h
  | cons u t2 ih => exact ih (insertSymbol_unique u h)

theorem indexFiles_unique (inputs : List (String × List Token)) :
    UniqueIdentities (indexFiles inputs).table := by
  have main : ∀ (inputs : List (String × List Token)) (acc : RunState),
      UniqueIdentities acc.table →
      UniqueIdentities (inputs.foldl
        (fun acc fi =>
          let st := runFile fi.1 fi.2
          (⟨mergeTables acc.table st.table, acc.diagnostics ++ st.diagnostics⟩ : RunState))
        acc).table := by
    intro inputs
    induction inputs with
    | nil => intro acc h; exact h
    | cons fi rest ih =>
        intro acc h
        exact ih _ (mergeTables_unique h)
  exact main inputs ⟨[], []⟩ List.Pairwise.nil

theorem resolveRun_unique {st : RunState} (h : UniqueIdentities st.table) :
    UniqueIdentities (resolveRun st).table := by
  unfold resolveRun resolveOverridesPass resolveBasesPass
  dsimp only
  refine unique_map _ ?_ (unique_map _ ?_ h)
  · intro t
    unfold resolveMethodOverride
    dsimp only
    split <;> try simp
    split <;> simp
  · intro t
    unfold resolveSymbolBases
    dsimp only
    split <;> simp

/-- Claim C3: in every completed Symbol Graph, qualified name plus kind is
a unique identity, and reopening a namespace twice in one file yields one
Namespace Symbol carrying the ordered sequence of both SourceSpans, not
two Symbols. -/
theorem C3_identity_unique :
    (∀ inputs : List (String × List Token),
      UniqueIdentities (indexAndResolve inputs).table) ∧
    reopenGraph.table.length = 1 ∧
    (findIdent reopenGraph.table ["graphics"] SymbolKind.namespaceKind).map Symbol.spans =
      some [mkSpan "reopen.cpp" 1 1, mkSpan "reopen.cpp" 4 4] := by
  refine ⟨?_, by decide, by decide⟩
  intro inputs
  exact resolveRun_unique (indexFiles_unique inputs)

/-- Claim C1: for the sample input, where Type Shape declares abstract
virtual methods area and draw and Type Circle with base list [Shape]
declares override methods area and draw, the Relationship Resolver binds
Circle's area to Shape's area and Circle's draw to Shape's draw - the
corresponding abstract virtual declarations. -/
theorem C1_override_binding :
    (methodInfoOf sampleGraph ["graphics", "Shape", "area"]).map
      (fun mp => (mp.isVirtual, mp.isAbstractM)) = some (true, true) ∧
    (methodInfoOf sampleGraph ["graphics", "Shape", "draw"]).map
      (fun mp => (mp.isVirtual, mp.isAbstractM)) = some (true, true) ∧
    basesOf sampleGraph ["graphics", "Circle"] =
      some [BaseRef.resolvedBase ["graphics", "Shape"]] ∧
    (methodInfoOf sampleGraph ["graphics", "Circle", "area"]).map
      (fun mp => (mp.isOverrideM, mp.overrides)) =
      some (true, some ["graphics", "Shape", "area"]) ∧
    (methodInfoOf sampleGraph ["graphics", "Circle", "draw"]).map
      (fun mp => (mp.isOverrideM, mp.overrides)) =
      some (true, some ["graphics", "Shape", "draw"]) := by
  decide

/-- Claim C2: every declared Method or Field Symbol's qualified name is the
concatenation of the enclosing scope names at its declaration event,
outermost first, followed by its local name; concretely, the sample file's
method area inside Circle inside graphics gets qualified name
graphics::Circle::area. -/
theorem C2_qualified_names :
    (∀ (pre post : List DeclEvent) (n rty ps : String) (iv ia io : Bool) (sp : SourceSpan),
      ∃ s ∈ (build (pre ++ DeclEvent.methodEvt n rty ps iv ia io sp :: post)).table,
        s.qname = scopeStackAt pre ++ [n] ∧ s.kind = SymbolKind.methodKind) ∧
    (∀ (pre post : List DeclEvent) (n ty : String) (sp : SourceSpan),
      ∃ s ∈ (build (pre ++ DeclEvent.fieldEvt n ty sp :: post)).table,
        s.qname = scopeStackAt pre ++ [n] ∧ s.kind = SymbolKind.fieldKind) ∧
    (∃ s ∈ sampleGraph.table,
      s.qname = ["graphics", "Circle", "area"] ∧ s.kind = SymbolKind.methodKind) := by
  refine ⟨?_, ?_, ?_⟩
  · intro pre post n rty ps iv ia io sp
    exact build_member_symbol pre post rfl
  · intro pre post n ty sp
    exact build_member_symbol pre post rfl
  · decide

/-- The hypothesis of the unresolved-base claim: no Type Symbol anywhere in
the merged table has `b` as its simple (last) name, so neither a qualified
nor a simple-name lookup can succeed. -/
def noTypeNamed (table : List Symbol) (b : String) : Prop :=
  ∀ t ∈ table, t.kind = SymbolKind.typeKind → t.qname.getLastD "" ≠ b

theorem resolveBaseRef_unresolved {table : List Symbol} {b : String} (pre : List String)
    (h : noTypeNamed table b) : resolveBaseRef table pre b = .unresolvedBase b := by
  have h1 : (scopeSearchList pre).findSome?
      (fun p => (lookupType table (p ++ [b])).map Symbol.qname) = none := by
    rw [List.findSome?_eq_none_iff]
    intro p _
    have hlook : lookupType table (p ++ [b]) = none := by
      rw [lookupType, List.find?_eq_none]
      intro s hs hm
      obtain ⟨hq, hk⟩ := identMatch_iff.mp hm
      exact h s hs hk (by rw [hq, List.getLastD_concat])
    rw [hlook]
    rfl
  have h2 : table.find?
      (fun s => s.kind == SymbolKind.typeKind && s.qname.getLastD "" == b) = none := by
    rw [List.find?_eq_none]
    intro s hs hm
    simp only [Bool.and_eq_true, beq_iff_eq] at hm
    exact h s hs hm.1 hm.2
  rw [resolveBaseRef, h1, h2]

theorem mem_foldr_append {α β : Type} (g : α → List β) {l : List α} {a : α} {d : β}
    (ha : a ∈ l) (hd : d ∈ g a) : d ∈ l.foldr (fun x acc => g x ++ acc) [] := by
  induction l with
  | nil => cases ha
  | cons x xs ih =>
      rcases List.mem_cons.mp ha with h | h
      · subst h
        exact List.mem_append_left _ hd
      · exact List.mem_append_right _ (ih h)

/-- Claim C4: a Type Symbol with a base reference naming a type present
nowhere in the merged table keeps that entry as an explicit unresolved
marker, a diagnostic is emitted on the run-level channel, and the run still
completes: the resolved graph holds a symbol for every table entry. -/
theorem C4_unresolved_base (st : RunState) (s : Symbol) (tp : TypePayload) (b : String)
    (hs : s ∈ st.table) (hp : s.payload = .typeP tp) (hb : BaseRef.pending b ∈ tp.bases)
    (hn : noTypeNamed st.table b) :
    (∃ s' ∈ (resolveRun st).table, s'.qname = s.qname ∧ s'.kind = s.kind ∧
      ∃ tp', s'.payload = .typeP tp' ∧ BaseRef.unresolvedBase b ∈ tp'.bases) ∧
    Diagnostic.unresolvedBaseDiag s.qname b ∈ (resolveRun st).diagnostics ∧
    (resolveRun st).table.length = st.table.length := by
  have hres : (resolveSymbolBases st.table s).1 =
      { s with payload := .typeP { tp with bases := tp.bases.map (fun bb =>
          match bb with
          | .pending n => resolveBaseRef st.table s.qname.dropLast n
          | other => other) } } := by
    rw [resolveSymbolBases, hp]
  have hmem : BaseRef.unresolvedBase b ∈ tp.bases.map (fun bb =>
      match bb with
      | .pending n => resolveBaseRef st.table s.qname.dropLast n
      | other => other) := by
    refine List.mem_map.mpr ⟨BaseRef.pending b, hb, ?_⟩
    exact resolveBaseRef_unresolved _ hn
  have hds : Diagnostic.unresolvedBaseDiag s.qname b ∈ (resolveSymbolBases st.table s).2 := by
    rw [resolveSymbolBases, hp]
    dsimp only
    exact List.mem_filterMap.mpr ⟨BaseRef.unresolvedBase b, hmem, rfl⟩
  refine ⟨?_, ?_, ?_⟩
  · refine ⟨(resolveMethodOverride (resolveBasesPass st.table).1
        ((resolveSymbolBases st.table s).1)).1, ?_, ?_⟩
    · show _ ∈ (resolveRun st).table
      rw [resolveRun]
      dsimp only
      rw [resolveOverridesPass]
      dsimp only
      refine List.mem_map.mpr ⟨(resolveSymbolBases st.table s).1, ?_, rfl⟩
      rw [resolveBasesPass]
      dsimp only
      exact List.mem_map.mpr ⟨s, hs, rfl⟩
    · rw [hres]
      exact ⟨rfl, rfl, _, rfl, hmem⟩
  · rw [resolveRun]
    dsimp only
    refine List.mem_append_left _ (List.mem_append_right _ ?_)
    rw [resolveBasesPass]
    dsimp only
    exact mem_foldr_append (fun x => (resolveSymbolBases st.table x).2) hs hds
  · rw [resolveRun]
    dsimp only
    rw [resolveOverridesPass, resolveBasesPass]
    simp

/-- The pre-resolution run state of the Orphan : Widget input. -/
def unresolvedRun : RunState := indexFiles [("u.cpp", unresolvedBaseTokens)]

/-- The Type Symbol the builder creates for Orphan, base Widget pending. -/
def orphanSym : Symbol :=
  ⟨["Orphan"], .typeKind, .unspecified, [mkSpan "u.cpp" 1 1],
    .typeP ⟨[.pending "Widget"], false⟩⟩

/-- Witness for C4 at the concrete Orphan : Widget input. -/
theorem C4_unresolved_base_witness :
    (orphanSym ∈ unresolvedRun.table ∧
      BaseRef.pending "Widget" ∈ [BaseRef.pending "Widget"] ∧
      noTypeNamed unresolvedRun.table "Widget") ∧
    ((∃ s' ∈ (resolveRun unresolvedRun).table, s'.qname = orphanSym.qname ∧
        s'.kind = orphanSym.kind ∧
        ∃ tp', s'.payload = .typeP tp' ∧ BaseRef.unresolvedBase "Widget" ∈ tp'.bases) ∧
      Diagnostic.unresolvedBaseDiag orphanSym.qname "Widget" ∈
        (resolveRun unresolvedRun).diagnostics ∧
      (resolveRun unresolvedRun).table.length = unresolvedRun.table.length) :=
  ⟨⟨by decide, by decide, by unfold noTypeNamed; decide⟩,
    C4_unresolved_base unresolvedRun orphanSym ⟨[.pending "Widget"], false⟩ "Widget"
      (by decide) rfl (by decide) (by unfold noTypeNamed; decide)⟩

/-- Claim C5: in the diamond input - Type C with declared base list [A, B],
both A and B declaring a virtual method m - the breadth-first
closest-base-first walk binds C's m to A's m, the first base in declared
base-list order.  The engine is a pure function of its input, so the
binding is literally identical across repeated runs on the same input; the
final conjunct records that fact. -/
theorem C5_diamond_tiebreak :
    basesOf diamondGraph ["C"] =
      some [BaseRef.resolvedBase ["A"], BaseRef.resolvedBase ["B"]] ∧
    overridesOf diamondGraph ["C", "m"] = some (some ["A", "m"]) ∧
    indexAndResolve [("diamond.cpp", diamondTokens)] =
      indexAndResolve [("diamond.cpp", diamondTokens)] := by
  exact ⟨by decide, by decide, rfl⟩

theorem unvisitedWeight_cons (s : Symbol) (ts : List Symbol) (v : List (List String)) :
    unvisitedWeight (s :: ts) v =
      if s.kind = .typeKind ∧ s.qname ∉ v then 1 + baseCount s + unvisitedWeight ts v
      else unvisitedWeight ts v := rfl

theorem unvisitedWeight_mono (table : List Symbol) (v v' : List (List String))
    (h : ∀ q, q ∈ v → q ∈ v') : unvisitedWeight table v' ≤ unvisitedWeight table v := by
  induction table with
  | nil => exact Nat.le_refl _
  | cons s ts ih =>
      rw [unvisitedWeight_cons, unvisitedWeight_cons]
      by_cases h1 : s.kind = .typeKind ∧ s.qname ∉ v'
      · have h2 : s.kind = .typeKind ∧ s.qname ∉ v := ⟨h1.1, fun hm => h1.2 (h _ hm)⟩
        rw [if_pos h1, if_pos h2]
        omega
      · rw [if_neg h1]
        split
        · omega
        · exact ih

theorem unvisitedWeight_remove {table : List Symbol} {s₀ : Symbol} {q : List String}
    {v : List (List String)} (hmem : s₀ ∈ table) (hk : s₀.kind = .typeKind)
    (hq : s₀.qname = q) (hv : q ∉ v) :
    unvisitedWeight table (q :: v) + (1 + baseCount s₀) ≤ unvisitedWeight table v := by
  induction table with
  | nil => cases hmem
  | cons t ts ih =>
      rcases List.mem_cons.mp hmem with heq | hmem'
      · subst heq
        rw [unvisitedWeight_cons, unvisitedWeight_cons]
        have hcv : s₀.kind = .typeKind ∧ s₀.qname ∉ v := ⟨hk, hq ▸ hv⟩
        have hcqv : ¬(s₀.kind = .typeKind ∧ s₀.qname ∉ q :: v) := by
          intro hcon
          exact hcon.2 (by rw [hq]; exact List.mem_cons_self q v)
        rw [if_pos hcv, if_neg hcqv]
        have hm := unvisitedWeight_mono ts v (q :: v)
          (fun x hx => List.mem_cons_of_mem q hx)
        omega
      · rw [unvisitedWeight_cons, unvisitedWeight_cons]
        have hrec := ih hmem'
        by_cases hc : t.kind = .typeKind ∧ t.qname ∉ q :: v
        · have hc' : t.kind = .typeKind ∧ t.qname ∉ v :=
            ⟨hc.1, fun hm => hc.2 (List.mem_cons_of_mem q hm)⟩
          rw [if_pos hc, if_pos hc']
          omega
        · rw [if_neg hc]
          split
          · omega
          · exact hrec

theorem unvisitedWeight_no_type {table : List Symbol} {q : List String}
    {v : List (List String)} (h : ∀ s ∈ table, ¬(s.kind = SymbolKind.typeKind ∧ s.qname = q)) :
    unvisitedWeight table (q :: v) = unvisitedWeight table v := by
  induction table with
  | nil => rfl
  | cons t ts ih =>
      have hts : ∀ s ∈ ts, ¬(s.kind = SymbolKind.typeKind ∧ s.qname = q) :=
        fun s hs => h s (List.mem_cons_of_mem t hs)
      rw [unvisitedWeight_cons, unvisitedWeight_cons, ih hts]
      have hiff : (t.kind = .typeKind ∧ t.qname ∉ q :: v) ↔ (t.kind = .typeKind ∧ t.qname ∉ v) := by
        constructor
        · rintro ⟨h1, h2⟩
          exact ⟨h1, fun hm => h2 (List.mem_cons_of_mem q hm)⟩
        · rintro ⟨h1, h2⟩
          refine ⟨h1, fun hm => ?_⟩
          rcases List.mem_cons.mp hm with heq | hm'
          · exact h t (List.mem_cons_self t ts) ⟨h1, heq⟩
          · exact h2 hm'
      by_cases hc : t.kind = .typeKind ∧ t.qname ∉ v
      · rw [if_pos hc, if_pos (hiff.mpr hc)]
      · rw [if_neg hc, if_neg (fun hx => hc (hiff.mp hx))]

theorem resolvedBasesOf_length_le {table : List Symbol} {q : List String} {s₀ : Symbol}
    (h : lookupType table q = some s₀) :
    (resolvedBasesOf table q).length ≤ baseCount s₀ := by
  rw [resolvedBasesOf, h]
  cases hp : s₀.payload with
  | typeP tp =>
      simp only [hp, baseCount]
      exact List.length_filterMap_le _ _
  | namespaceP => simp [hp, baseCount]
  | methodP mp => simp [hp, baseCount]
  | fieldP d => simp [hp, baseCount]
  | constructorP sig => simp [hp, baseCount]

theorem walk_isSome {table : List Symbol} (startT : List String) (name : String) :
    ∀ (fuel : Nat) (queue visited : List (List String)) (cyc : Bool),
      unvisitedWeight table visited + queue.length < fuel →
      (walk table startT name fuel queue visited cyc).isSome = true := by
  intro fuel
  induction fuel with
  | zero => intro queue visited cyc h; omega
  | succ f ih =>
      intro queue visited cyc h
      cases queue with
      | nil => rfl
      | cons q qs =>
          rw [walk]
          split
          · apply ih
            simp only [List.length_cons] at h
            omega
          · cases hfind : findVirtualMethod table q name with
            | some m => simp
            | none =>
                simp only [hfind]
                apply ih
                simp only [List.length_cons] at h
                simp only [List.length_append]
                cases hlook : lookupType table q with
                | some s₀ =>
                    have hmem := List.mem_of_find?_eq_some hlook
                    obtain ⟨hq, hk⟩ := identMatch_iff.mp (List.find?_some hlook)
                    have hrm := unvisitedWeight_remove hmem hk hq (by assumption)
                    have hlen := resolvedBasesOf_length_le hlook
                    omega
                | none =>
                    have hno : ∀ s ∈ table, ¬(s.kind = SymbolKind.typeKind ∧ s.qname = q) := by
                      intro s hs hcon
                      have := List.find?_eq_none.mp hlook s hs
                      exact this (identMatch_iff.mpr ⟨hcon.2, hcon.1⟩)
                    have hz : resolvedBasesOf table q = [] := by
                      rw [resolvedBasesOf, hlook]
                    rw [hz, unvisitedWeight_no_type hno]
                    simp only [List.length_nil]
                    omega

/-- Claim C6: every base-chain walk the Relationship Resolver performs
terminates within the fuel it is given - the visited set bounds the walk,
so at the Resolver's fuel the walk always returns a definite result, for
every table, start type and method name, including cyclic malformed input.
Concretely, for a Type listing itself directly (A : A) or transitively
(P : Q, Q : P) as its own base, the run completes, the override stays
unresolved, and a cycle diagnostic is emitted - never an infinite loop. -/
theorem C6_walk_terminates :
    (∀ (table : List Symbol) (typeQ : List String) (name : String),
      (walk table typeQ name (walkFuel table (resolvedBasesOf table typeQ))
        (resolvedBasesOf table typeQ) [typeQ] false).isSome = true) ∧
    basesOf selfBaseGraph ["A"] = some [BaseRef.resolvedBase ["A"]] ∧
    overridesOf selfBaseGraph ["A", "m"] = some none ∧
    Diagnostic.cycleDiag ["A"] ∈ selfBaseGraph.diagnostics ∧
    Diagnostic.unresolvedOverrideDiag ["A", "m"] ∈ selfBaseGraph.diagnostics ∧
    overridesOf transCycleGraph ["P", "m"] = some none ∧
    Diagnostic.cycleDiag ["P"] ∈ transCycleGraph.diagnostics := by
  refine ⟨?_, by decide, by decide, by decide, by decide, by decide, by decide⟩
  intro table typeQ name
  apply walk_isSome
  rw [walkFuel]
  have hm := unvisitedWeight_mono table [] [typeQ]
    (fun x hx => absurd hx (List.not_mem_nil x))
  omega

/-- Claim C8: a Method, Field or Constructor declaration event arriving
while the scope stack is empty records a declaration-outside-scope
diagnostic and the Symbol is still created at file-root scope - never
dropped silently, never fatal. -/
theorem C8_outside_scope (pre post : List DeclEvent) (e : DeclEvent) (n : String)
    (k : SymbolKind) (he : memberDecl e = some (n, k)) (hs : scopeStackAt pre = []) :
    Diagnostic.scopeError n ∈ (build (pre ++ e :: post)).diagnostics ∧
    ∃ s ∈ (build (pre ++ e :: post)).table, s.qname = [n] ∧ s.kind = k := by
  have hscopes : (build pre).scopes = [] := by
    rw [← scopeNames_nil_iff, scopeNames_build]
    exact hs
  constructor
  · rw [build_middle]
    apply foldl_diag_mono
    cases e with
    | methodEvt n' rty ps iv ia io span =>
        obtain ⟨rfl, rfl⟩ : n' = n ∧ SymbolKind.methodKind = k := by
          simpa [memberDecl] using he
        simp [applyEvent, hscopes]
    | fieldEvt n' ty span =>
        obtain ⟨rfl, rfl⟩ : n' = n ∧ SymbolKind.fieldKind = k := by
          simpa [memberDecl] using he
        simp [applyEvent, hscopes]
    | constructorEvt n' sig span =>
        obtain ⟨rfl, rfl⟩ : n' = n ∧ SymbolKind.constructorKind = k := by
          simpa [memberDecl] using he
        simp [applyEvent, hscopes]
    | enterNamespace n' span => simp [memberDecl] at he
    | enterType n' bases span => simp [memberDecl] at he
    | exitScope => simp [memberDecl] at he
    | accessSection v => simp [memberDecl] at he
  · have h := build_member_symbol pre post he
    rw [hs] at h
    simpa using h

/-- Witness for C8 at a concrete input: a lone field event with no open
scope. -/
theorem C8_outside_scope_witness :
    Diagnostic.scopeError "orphan" ∈
      (build ([] ++ DeclEvent.fieldEvt "orphan" "int" (mkSpan "w.cpp" 1 1) :: [])).diagnostics ∧
    ∃ s ∈ (build ([] ++ DeclEvent.fieldEvt "orphan" "int" (mkSpan "w.cpp" 1 1) :: [])).table,
      s.qname = ["orphan"] ∧ s.kind = SymbolKind.fieldKind :=
  C8_outside_scope [] [] _ "orphan" SymbolKind.fieldKind rfl rfl

theorem findIdent_insert (t : List Symbol) (u : Symbol) (q : List String) (k : SymbolKind) :
    findIdent (insertSymbol t u) q k =
      if u.qname = q ∧ u.kind = k then
        (match findIdent t q k with
         | some w => some { w with spans := w.spans ++ u.spans }
         | none => some u)
      else findIdent t q k := by
  unfold insertSymbol findIdent
  split
  next hany =>
    rw [List.find?_map]
    have hpf : (identMatch q k ∘ fun t => if identMatch u.qname u.kind t = true then
        { t with spans := t.spans ++ u.spans } else t) = identMatch q k := by
      funext w
      simp only [Function.comp_apply]
      split <;> simp [identMatch]
    rw [hpf]
    by_cases hu : u.qname = q ∧ u.kind = k
    · rw [if_pos hu]
      cases hf : t.find? (identMatch q k) with
      | some w =>
          obtain ⟨hwq, hwk⟩ := identMatch_iff.mp (List.find?_some hf)
          have : identMatch u.qname u.kind w = true :=
            identMatch_iff.mpr ⟨by rw [hwq, hu.1], by rw [hwk, hu.2]⟩
          simp [this]
      | none =>
          obtain ⟨a, ha, hm⟩ := List.any_eq_true.mp hany
          have : identMatch q k a = true := by
            obtain ⟨h1, h2⟩ := identMatch_iff.mp hm
            exact identMatch_iff.mpr ⟨by rw [h1, hu.1], by rw [h2, hu.2]⟩
          exact absurd this (List.find?_eq_none.mp hf a ha)
    · rw [if_neg hu]
      cases hf : t.find? (identMatch q k) with
      | some w =>
          obtain ⟨hwq, hwk⟩ := identMatch_iff.mp (List.find?_some hf)
          have : identMatch u.qname u.kind w = false := by
            rw [Bool.eq_false_iff]
            intro hcon
            obtain ⟨h1, h2⟩ := identMatch_iff.mp hcon
            exact hu ⟨by rw [← h1, hwq], by rw [← h2, hwk]⟩
          simp [this]
      | none => simp
  next hany =>
    rw [List.find?_append]
    by_cases hu : u.qname = q ∧ u.kind = k
    · rw [if_pos hu]
      have hnone : t.find? (identMatch q k) = none := by
        rw [List.find?_eq_none]
        intro a ha hm
        apply hany
        obtain ⟨h1, h2⟩ := identMatch_iff.mp hm
        exact List.any_eq_true.mpr
          ⟨a, ha, identMatch_iff.mpr ⟨by rw [h1, hu.1], by rw [h2, hu.2]⟩⟩
      rw [hnone]
      have hum : identMatch q k u = true := identMatch_iff.mpr hu
      simp [List.find?_cons, hum]
    · rw [if_neg hu]
      have hum : identMatch q k u = false := by
        rw [Bool.eq_false_iff]
        intro hcon
        exact hu (identMatch_iff.mp hcon)
      simp [List.find?_cons, hum]

theorem findIdent_merge_congr {t₁ t₂ : List Symbol} {q : List String} {k : SymbolKind}
    (U : List Symbol) (h : findIdent t₁ q k = findIdent t₂ q k) :
    findIdent (mergeTables t₁ U) q k = findIdent (mergeTables t₂ U) q k := by
  induction U generalizing t₁ t₂ with
  | nil => exact h
  | cons u U ih =>
      show findIdent (mergeTables (insertSymbol t₁ u) U) q k =
        findIdent (mergeTables (insertSymbol t₂ u) U) q k
      exact ih (by rw [findIdent_insert, findIdent_insert, h])

theorem findIdent_merge_none {t : List Symbol} {q : List String} {k : SymbolKind}
    {U : List Symbol} (h : ∀ u ∈ U, ¬(u.qname = q ∧ u.kind = k)) :
    findIdent (mergeTables t U) q k = findIdent t q k := by
  induction U generalizing t with
  | nil => rfl
  | cons u U ih =>
      show findIdent (mergeTables (insertSymbol t u) U) q k = findIdent t q k
      rw [ih (fun v hv => h v (List.mem_cons_of_mem u hv)), findIdent_insert,
        if_neg (h u (List.mem_cons_self u U))]

/-- The first Symbol of identity (q, k) carries a span from file f. -/
def FileSpanIn (f : String) (o : Option Symbol) : Prop :=
  ∃ w, o = some w ∧ ∃ sp ∈ w.spans, sp.file = f

theorem fileSpanIn_insert {f : String} {t : List Symbol} {q : List String} {k : SymbolKind}
    (u : Symbol) (h : FileSpanIn f (findIdent t q k)) :
    FileSpanIn f (findIdent (insertSymbol t u) q k) := by
  obtain ⟨w, hw, sp, hsp, hf⟩ := h
  rw [findIdent_insert]
  split
  · rw [hw]
    exact ⟨_, rfl, sp, List.mem_append_left _ hsp, hf⟩
  · exact ⟨w, hw, sp, hsp, hf⟩

theorem fileSpanIn_merge {f : String} {t : List Symbol} {q : List String} {k : SymbolKind}
    (U : List Symbol) (h : FileSpanIn f (findIdent t q k)) :
    FileSpanIn f (findIdent (mergeTables t U) q k) := by
  induction U generalizing t with
  | nil => exact h
  | cons u U ih =>
      show FileSpanIn f (findIdent (mergeTables (insertSymbol t u) U) q k)
      exact ih (fileSpanIn_insert u h)

theorem fileSpanIn_merge_of_mem {f : String} {t : List Symbol} {q : List String}
    {k : SymbolKind} {U : List Symbol} {u : Symbol} (hu : u ∈ U)
    (hid : u.qname = q ∧ u.kind = k) {sp : SourceSpan} (hsp : sp ∈ u.spans)
    (hf : sp.file = f) : FileSpanIn f (findIdent (mergeTables t U) q k) := by
  induction U generalizing t with
  | nil => cases hu
  | cons v U ih =>
      show FileSpanIn f (findIdent (mergeTables (insertSymbol t v) U) q k)
      rcases List.mem_cons.mp hu with heq | hmem
      · subst heq
        apply fileSpanIn_merge
        rw [findIdent_insert, if_pos hid]
        cases hfi : findIdent t q k with
        | some w => exact ⟨_, rfl, sp, List.mem_append_right _ hsp, hf⟩
        | none => exact ⟨u, rfl, sp, hsp, hf⟩
      · exact ih hmem

theorem findIdent_self {table : List Symbol} {s : Symbol}
    (hu : UniqueIdentities table) (hs : s ∈ table) :
    findIdent table s.qname s.kind = some s := by
  induction table with
  | nil => cases hs
  | cons t ts ih =>
      rcases List.pairwise_cons.mp hu with ⟨hhead, htail⟩
      rcases List.mem_cons.mp hs with heq | hmem
      · subst heq
        unfold findIdent
        rw [List.find?_cons]
        have : identMatch s.qname s.kind s = true := identMatch_iff.mpr ⟨rfl, rfl⟩
        simp [this]
      · unfold findIdent
        rw [List.find?_cons]
        have : identMatch s.qname s.kind t = false := by
          rw [Bool.eq_false_iff]
          intro hcon
          obtain ⟨h1, h2⟩ := identMatch_iff.mp hcon
          exact hhead s hmem ⟨h1, h2⟩
        simp only [this]
        exact ih htail hmem

/-- A Symbol built from file f: at least one span, and every span names f. -/
def spanOkSymbol (f : String) (u : Symbol) : Prop :=
  u.spans ≠ [] ∧ ∀ sp ∈ u.spans, sp.file = f

/-- The span carried by a declaration event names file f. -/
def eventSpanFile (f : String) : DeclEvent → Prop
  | .enterNamespace _ sp => sp.file = f
  | .enterType _ _ sp => sp.file = f
  | .methodEvt _ _ _ _ _ _ sp => sp.file = f
  | .fieldEvt _ _ sp => sp.file = f
  | .constructorEvt _ _ sp => sp.file = f
  | .exitScope => True
  | .accessSection _ => True

theorem recognize_event_file (file : String) :
    ∀ (fuel : Nat) (stk : List (String × Bool)) (toks : List Token),
      ∀ e ∈ recognize file fuel stk toks, eventSpanFile file e := by
  intro fuel
  induction fuel with
  | zero => intro stk toks e he; simp [recognize] at he
  | succ fl ih =>
      intro stk toks e he
      cases toks with
      | nil => simp [recognize] at he
      | cons t rest =>
          simp only [recognize] at he
          repeat' split at he
          all_goals first
            | exact ih _ _ _ he
            | ((rcases List.mem_cons.mp he with heq | hm) <;>
                first
                  | (subst heq; simp [eventSpanFile, mkSpan])
                  | exact ih _ _ _ hm)

theorem insertSymbol_spanOk {f : String} {t : List Symbol} {s : Symbol}
    (ht : ∀ u ∈ t, spanOkSymbol f u) (hs : spanOkSymbol f s) :
    ∀ u ∈ insertSymbol t s, spanOkSymbol f u := by
  unfold insertSymbol
  split
  · intro u hu
    obtain ⟨w, hw, heq⟩ := List.mem_map.mp hu
    subst heq
    try dsimp only
    split
    · refine ⟨?_, ?_⟩
      · intro hcon
        rcases List.append_eq_nil.mp hcon with ⟨hw1, _⟩
        exact (ht w hw).1 hw1
      · intro sp hsp
        rcases List.mem_append.mp hsp with hmem | hmem
        · exact (ht w hw).2 sp hmem
        · exact hs.2 sp hmem
    · exact ht w hw
  · intro u hu
    rcases List.mem_append.mp hu with hmem | hmem
    · exact ht u hmem
    · rw [List.mem_singleton.mp hmem]
      exact hs

theorem markAbstract_spanOk {f : String} {t : List Symbol} (q : List String)
    (ht : ∀ u ∈ t, spanOkSymbol f u) :
    ∀ u ∈ markAbstract t q, spanOkSymbol f u := by
  intro u hu
  obtain ⟨w, hw, heq⟩ := List.mem_map.mp hu
  subst heq
  try dsimp only
  split
  · split
    · exact ⟨(ht w hw).1, (ht w hw).2⟩
    · exact ht w hw
  · exact ht w hw

theorem singleton_spanOk {f : String} {span : SourceSpan} (hf : span.file = f)
    (q : List String) (k : SymbolKind) (vis : Visibility) (pl : Payload) :
    spanOkSymbol f (⟨q, k, vis, [span], pl⟩ : Symbol) :=
  ⟨List.cons_ne_nil _ _, fun sp hsp => by rw [List.mem_singleton.mp hsp]; exact hf⟩

theorem applyEvent_spanOk {f : String} {st : BuildState} {e : DeclEvent}
    (he : eventSpanFile f e) (ht : ∀ u ∈ st.table, spanOkSymbol f u) :
    ∀ u ∈ (applyEvent st e).table, spanOkSymbol f u := by
  cases e with
  | enterNamespace n span =>
      exact fun u hu => insertSymbol_spanOk ht (singleton_spanOk he _ _ _ _) u hu
  | enterType n bases span =>
      exact fun u hu => insertSymbol_spanOk ht (singleton_spanOk he _ _ _ _) u hu
  | exitScope => exact fun u hu => ht u hu
  | accessSection v =>
      cases hsc : st.scopes with
      | nil => exact fun u hu => ht u (by simpa [applyEvent, hsc] using hu)
      | cons sc rest => exact fun u hu => ht u (by simpa [applyEvent, hsc] using hu)
  | methodEvt n rty ps iv ia io span =>
      cases ia with
      | true =>
          exact fun u hu =>
            markAbstract_spanOk _ (insertSymbol_spanOk ht (singleton_spanOk he _ _ _ _)) u hu
      | false =>
          exact fun u hu => insertSymbol_spanOk ht (singleton_spanOk he _ _ _ _) u hu
  | fieldEvt n ty span =>
      exact fun u hu => insertSymbol_spanOk ht (singleton_spanOk he _ _ _ _) u hu
  | constructorEvt n sig span =>
      exact fun u hu => insertSymbol_spanOk ht (singleton_spanOk he _ _ _ _) u hu

theorem foldl_spanOk {f : String} {es : List DeclEvent} {st : BuildState}
    (hes : ∀ e ∈ es, eventSpanFile f e) (ht : ∀ u ∈ st.table, spanOkSymbol f u) :
    ∀ u ∈ (es.foldl applyEvent st).table, spanOkSymbol f u := by
  induction es generalizing st with
  | nil => exact ht
  | cons e es ih =>
      exact ih (fun x hx => hes x (List.mem_cons_of_mem e hx))
        (applyEvent_spanOk (hes e (List.mem_cons_self e es)) ht)

theorem runFile_spanOk (f : String) (toks : List Token) :
    ∀ u ∈ (runFile f toks).table, spanOkSymbol f u := by
  intro u hu
  exact foldl_spanOk (recognize_event_file f _ _ _) (fun v hv => absurd hv (List.not_mem_nil v))
    u hu

/-- The merged table of a run, as a fold of per-file merges over an
accumulator. -/
def tableFold (inputs : List (String × List Token)) (t : List Symbol) : List Symbol :=
  inputs.foldl (fun acc fi => mergeTables acc (runFile fi.1 fi.2).table) t

theorem indexFiles_table_eq (inputs : List (String × List Token)) :
    (indexFiles inputs).table = tableFold inputs [] := by
  have main : ∀ (inputs : List (String × List Token)) (acc : RunState),
      (inputs.foldl
        (fun acc fi =>
          let st := runFile fi.1 fi.2
          (⟨mergeTables acc.table st.table, acc.diagnostics ++ st.diagnostics⟩ : RunState))
        acc).table = tableFold inputs acc.table := by
    intro inputs
    induction inputs with
    | nil => intro acc; rfl
    | cons fi rest ih => intro acc; exact ih _
  exact main inputs ⟨[], []⟩

theorem fileSpanIn_tableFold {f : String} {q : List String} {k : SymbolKind}
    (inputs : List (String × List Token)) {t : List Symbol}
    (h : FileSpanIn f (findIdent t q k)) :
    FileSpanIn f (findIdent (tableFold inputs t) q k) := by
  induction inputs generalizing t with
  | nil => exact h
  | cons fi rest ih => exact ih (fileSpanIn_merge _ h)

theorem reindex_fold {q : List String} {k : SymbolKind} (f : String) (newToks : List Token) :
    ∀ (inputs : List (String × List Token)) (t₁ t₂ : List Symbol),
      findIdent t₁ q k = findIdent t₂ q k →
      (∀ fi ∈ inputs, fi.1 = f →
        ∀ u ∈ (runFile fi.1 fi.2).table, ¬(u.qname = q ∧ u.kind = k)) →
      (∀ u ∈ (runFile f newToks).table, ¬(u.qname = q ∧ u.kind = k)) →
      findIdent (tableFold inputs t₁) q k =
        findIdent (tableFold (reindexInputs inputs f newToks) t₂) q k := by
  intro inputs
  induction inputs with
  | nil => intro t₁ t₂ h _ _; exact h
  | cons fi rest ih =>
      intro t₁ t₂ h hold hnew
      by_cases hf : fi.1 = f
      · have hcons : tableFold (reindexInputs (fi :: rest) f newToks) t₂ =
            tableFold (reindexInputs rest f newToks)
              (mergeTables t₂ (runFile fi.1 newToks).table) := by
          simp only [reindexInputs, List.map_cons, if_pos hf]
          rfl
        rw [hcons]
        show findIdent (tableFold rest (mergeTables t₁ (runFile fi.1 fi.2).table)) q k = _
        apply ih
        · rw [findIdent_merge_none (hold fi (List.mem_cons_self fi rest) hf)]
          have : findIdent (mergeTables t₂ (runFile fi.1 newToks).table) q k =
              findIdent t₂ q k := by
            rw [hf]
            exact findIdent_merge_none hnew
          rw [this, h]
        · exact fun x hx hxf => hold x (List.mem_cons_of_mem fi hx) hxf
        · exact hnew
      · have hcons : tableFold (reindexInputs (fi :: rest) f newToks) t₂ =
            tableFold (reindexInputs rest f newToks)
              (mergeTables t₂ (runFile fi.1 fi.2).table) := by
          simp only [reindexInputs, List.map_cons, if_neg hf]
          rfl
        rw [hcons]
        show findIdent (tableFold rest (mergeTables t₁ (runFile fi.1 fi.2).table)) q k = _
        apply ih
        · exact findIdent_merge_congr _ h
        · exact fun x hx hxf => hold x (List.mem_cons_of_mem fi hx) hxf
        · exact hnew

/-- The Namespace Symbol for n as built from a.cpp alone. -/
def origNSymbol : Symbol :=
  ⟨["n"], .namespaceKind, .unspecified, [mkSpan "a.cpp" 1 1], .namespaceP⟩

/-- Counterexample to claim C7 as stated: re-indexing b.cpp with new
content that declares namespace n changes the Symbol that originated
purely from a.cpp - cross-file identity merging appends a b.cpp span to
it, so the Symbol is not unchanged. -/
theorem C7_reindex_counterexample :
    origNSymbol ∈ (indexFiles reindexInputsOrig).table ∧
    (∀ sp ∈ origNSymbol.spans, sp.file ≠ "b.cpp") ∧
    origNSymbol ∉ (indexFiles (reindexInputs reindexInputsOrig "b.cpp" nsTokens)).table := by
  exact ⟨by decide, by decide, by decide⟩

/-- Claim C7 (amended): in the merged symbol table, re-indexing one file
leaves unchanged - same Symbol, same previous SourceSpans - every Symbol
that has no SourceSpan in that file and whose identity is not declared by
the file's new content.  (The counterexample above shows the claim fails
without the last condition: a Symbol of the same identity in the new
content merges into the other files' Symbol and extends its span list.) -/
theorem C7_reindex_frame (inputs : List (String × List Token)) (f : String)
    (newToks : List Token) (s : Symbol)
    (h1 : s ∈ (indexFiles inputs).table)
    (h2 : ∀ sp ∈ s.spans, sp.file ≠ f)
    (h3 : ∀ u ∈ (runFile f newToks).table, ¬(u.qname = s.qname ∧ u.kind = s.kind)) :
    s ∈ (indexFiles (reindexInputs inputs f newToks)).table := by
  by_cases hbad : ∀ fi ∈ inputs, fi.1 = f →
      ∀ u ∈ (runFile fi.1 fi.2).table, ¬(u.qname = s.qname ∧ u.kind = s.kind)
  · have hfind : findIdent (indexFiles inputs).table s.qname s.kind = some s :=
      findIdent_self (indexFiles_unique inputs) h1
    have hcong := reindex_fold f newToks inputs [] [] rfl hbad h3
    rw [indexFiles_table_eq] at hfind
    rw [indexFiles_table_eq]
    have hnew : findIdent (tableFold (reindexInputs inputs f newToks) []) s.qname s.kind =
        some s := by
      rw [← hcong]
      exact hfind
    exact List.mem_of_find?_eq_some hnew
  · push_neg at hbad
    obtain ⟨fi, hfi, hf1, u, hu, hid⟩ := hbad
    exfalso
    obtain ⟨pre, post, rfl⟩ := List.append_of_mem hfi
    have hsp : FileSpanIn f (findIdent (tableFold (pre ++ fi :: post) []) s.qname s.kind) := by
      have htf : tableFold (pre ++ fi :: post) [] =
          tableFold post (mergeTables (tableFold pre []) (runFile fi.1 fi.2).table) := by
        rw [tableFold, List.foldl_append]
        rfl
      rw [htf]
      apply fileSpanIn_tableFold
      obtain ⟨hne, hall⟩ := runFile_spanOk fi.1 fi.2 u hu
      obtain ⟨sp, hspmem⟩ := List.exists_mem_of_ne_nil u.spans hne
      exact fileSpanIn_merge_of_mem hu hid hspmem (by rw [hall sp hspmem, hf1])
    obtain ⟨w, hw, sp, hspw, hspf⟩ := hsp
    have hfind : findIdent (tableFold (pre ++ fi :: post) []) s.qname s.kind = some s := by
      rw [← indexFiles_table_eq]
      exact findIdent_self (indexFiles_unique _) h1
    rw [hfind] at hw
    obtain rfl : s = w := Option.some.inj hw
    exact h2 sp hspw hspf

/-- Witness for the amended C7 at a concrete input: re-indexing b.cpp with
content that declares only class A leaves the a.cpp namespace Symbol
untouched. -/
theorem C7_reindex_frame_witness :
    (origNSymbol ∈ (indexFiles reindexInputsOrig).table ∧
      (∀ sp ∈ origNSymbol.spans, sp.file ≠ "b.cpp") ∧
      (∀ u ∈ (runFile "b.cpp" selfBaseTokens).table,
        ¬(u.qname = origNSymbol.qname ∧ u.kind = origNSymbol.kind))) ∧
    origNSymbol ∈ (indexFiles (reindexInputs reindexInputsOrig "b.cpp" selfBaseTokens)).table :=
  ⟨⟨by decide, by decide, by decide⟩,
    C7_reindex_frame reindexInputsOrig "b.cpp" selfBaseTokens origNSymbol
      (by decide) (by decide) (by decide)⟩

/-- Claim C9: on the sample file the Declaration Recognizer emits a
Constructor event for the line Circle(double r) : radius(r), and the colon
introducing the member initializer list is not treated as a base-list
introducer: the type-open event for Circle lists exactly the base Shape,
and the resolved Type Symbol's base references are exactly the resolved
Shape - radius appears nowhere in the base list. -/
theorem C9_constructor_event :
    DeclEvent.constructorEvt "Circle" "(double r)" (mkSpan sampleFile 13 13) ∈ sampleEvents ∧
    DeclEvent.enterType "Circle" ["Shape"] (mkSpan sampleFile 11 11) ∈ sampleEvents ∧
    basesOf sampleGraph ["graphics", "Circle"] =
      some [BaseRef.resolvedBase ["graphics", "Shape"]] := by
  decide

/-- Claim C10: on the sample file each member Symbol's visibility is the
most recent preceding access-section marker - Shape's area and draw and
Circle's constructor, area and draw are Public, while the field radius,
declared after the private marker, is Private.  Moreover nothing after a
declaration ever changes its visibility: any symbol present after some
event prefix keeps its visibility under any further events. -/
theorem C10_member_visibility :
    (visibilityOf sampleGraph ["graphics", "Shape", "area"] SymbolKind.methodKind =
        some Visibility.publicVis ∧
      visibilityOf sampleGraph ["graphics", "Shape", "draw"] SymbolKind.methodKind =
        some Visibility.publicVis ∧
      visibilityOf sampleGraph ["graphics", "Circle", "Circle"] SymbolKind.constructorKind =
        some Visibility.publicVis ∧
      visibilityOf sampleGraph ["graphics", "Circle", "area"] SymbolKind.methodKind =
        some Visibility.publicVis ∧
      visibilityOf sampleGraph ["graphics", "Circle", "draw"] SymbolKind.methodKind =
        some Visibility.publicVis ∧
      visibilityOf sampleGraph ["graphics", "Circle", "radius"] SymbolKind.fieldKind =
        some Visibility.privateVis) ∧
    (∀ (es more : List DeclEvent) (s : Symbol), s ∈ (build es).table →
      ∃ s' ∈ (build (es ++ more)).table,
        s'.qname = s.qname ∧ s'.kind = s.kind ∧ s'.visibility = s.visibility) := by
  constructor
  · exact ⟨by decide, by decide, by decide, by decide, by decide, by decide⟩
  · intro es more s hs
    rw [build, List.foldl_append]
    exact foldl_preserves hs

/-- Witness for C10 at a concrete input: a field declared under a private
marker keeps its Private visibility when more events follow. -/
theorem C10_member_visibility_witness :
    (⟨["T", "x"], SymbolKind.fieldKind, Visibility.privateVis,
        [mkSpan "w.cpp" 3 3], Payload.fieldP "int"⟩ : Symbol) ∈
      (build [DeclEvent.enterType "T" [] (mkSpan "w.cpp" 1 1),
        DeclEvent.accessSection Visibility.privateVis,
        DeclEvent.fieldEvt "x" "int" (mkSpan "w.cpp" 3 3)]).table ∧
    ∃ s' ∈ (build ([DeclEvent.enterType "T" [] (mkSpan "w.cpp" 1 1),
        DeclEvent.accessSection Visibility.privateVis,
        DeclEvent.fieldEvt "x" "int" (mkSpan "w.cpp" 3 3)] ++
          [DeclEvent.accessSection Visibility.publicVis,
           DeclEvent.fieldEvt "y" "int" (mkSpan "w.cpp" 5 5)])).table,
      s'.qname = (⟨["T", "x"], SymbolKind.fieldKind, Visibility.privateVis,
          [mkSpan "w.cpp" 3 3], Payload.fieldP "int"⟩ : Symbol).qname ∧
      s'.kind = (⟨["T", "x"], SymbolKind.fieldKind, Visibility.privateVis,
          [mkSpan "w.cpp" 3 3], Payload.fieldP "int"⟩ : Symbol).kind ∧
      s'.visibility = (⟨["T", "x"], SymbolKind.fieldKind, Visibility.privateVis,
          [mkSpan "w.cpp" 3 3], Payload.fieldP "int"⟩ : Symbol).visibility :=
  ⟨by decide, C10_member_visibility.2 _ _ _ (by decide)⟩

end EM
